import Mathlib

/-!
Verification development for the ClipForge video-processing core.

Each definition below is a shallow embedding of a function of the Python
source (`app/utils/ffmpeg_ops.py`, `app/utils/silence.py`,
`app/utils/face_crop.py`, `app/utils/files.py`, `app/utils/processing.py`).
Python floats are modelled as rationals, Python ints as integers, and
effectful code (file writes, subprocess invocations, progress callbacks)
as explicit event traces.  External subprocess invocations are modelled as
succeeding; their runtime failures are environmental and outside the
properties considered here.  While-loops whose termination depends on the
input are modelled with an explicit fuel parameter returning an `Option`;
`none` for every fuel corresponds to non-termination of the Python loop.
-/

namespace ClipForge

/-- Python `int(x)` applied to a float value: truncation toward zero. -/
def pyInt (q : ℚ) : ℤ := if 0 ≤ q then ⌊q⌋ else ⌈q⌉

/-- Embedding of `_compute_crop_region` (`app/utils/face_crop.py`).
Face positions are `(center_x, center_y, width, height)` in normalized
coordinates; dimensions are in pixels.  The successive reassignments of
`crop_w` and `crop_h` in the Python body are written as `w0, w1, crop_w`
and `h0, h1, crop_h`.  `np.mean` of a non-empty list is its sum divided
by its length; Python `%` on ints with positive divisor is `Int.emod`. -/
def compute_crop_region (face_positions : List (ℚ × ℚ × ℚ × ℚ))
    (video_width video_height : ℤ) : ℤ × ℤ × ℤ × ℤ :=
  let n : ℕ := face_positions.length
  let avg_cx : ℚ := if n = 0 then 1/2 else (face_positions.map (fun p => p.1)).sum / n
  let avg_cy : ℚ := if n = 0 then 1/2 else (face_positions.map (fun p => p.2.1)).sum / n
  let h0 : ℤ := video_height
  let w0 : ℤ := pyInt ((h0 : ℚ) * 9 / 16)
  let w1 : ℤ := if w0 > video_width then video_width else w0
  let h1 : ℤ := if w0 > video_width then pyInt ((w1 : ℚ) * 16 / 9) else h0
  let crop_w : ℤ := w1 - w1 % 2
  let crop_h : ℤ := h1 - h1 % 2
  let x0 : ℤ := pyInt (avg_cx * video_width - (crop_w : ℚ) / 2)
  let y0 : ℤ := pyInt (avg_cy * video_height - (crop_h : ℚ) / 2)
  let crop_x : ℤ := max 0 (min x0 (video_width - crop_w))
  let crop_y : ℤ := max 0 (min y0 (video_height - crop_h))
  (crop_x, crop_y, crop_w, crop_h)

/-- Embedding of the indices chosen by
`np.linspace(0, total_frames - 1, n, dtype=int)` in `_sample_face_positions`
(`app/utils/face_crop.py`): `n` evenly spaced points over
`[0, total_frames - 1]`, truncated to integers. -/
def linspace_indices (total_frames n : ℤ) : List ℤ :=
  if n ≤ 0 then []
  else if n = 1 then [0]
  else (List.range n.toNat).map
    (fun i => pyInt ((i : ℚ) * ((total_frames : ℚ) - 1) / ((n : ℚ) - 1)))

/-- Embedding of `_sample_face_positions` (`app/utils/face_crop.py`) with
`sample_count = 60`.  `opened` models `cap.isOpened()`, `total_frames` the
`CAP_PROP_FRAME_COUNT` property, and `detect` the per-frame combination of
`cap.read()` and the MediaPipe face detector (`none` when the frame cannot
be decoded or has no detection, the best detection's normalized
center/size otherwise).  The two guard clauses raise `RuntimeError`,
modelled as `Except.error` with the source's message. -/
def sample_face_positions (opened : Bool) (total_frames : ℤ)
    (detect : ℤ → Option (ℚ × ℚ × ℚ × ℚ)) :
    Except String (List (ℚ × ℚ × ℚ × ℚ)) :=
  if opened = false then Except.error "Cannot open video"
  else if total_frames ≤ 0 then Except.error "Cannot determine frame count"
  else Except.ok ((linspace_indices total_frames (min 60 total_frames)).filterMap detect)

/-- Embedding of the sweep loop of `_compute_non_silent_segments`
(`app/utils/silence.py`): walk the sorted silent intervals, emit the gap
before each one when non-empty, advance `prev_end`, and emit the trailing
audible interval after the loop when `prev_end < total_duration`. -/
def nonSilentSweep (prev_end total_duration : ℚ) : List (ℚ × ℚ) → List (ℚ × ℚ)
  | [] => if prev_end < total_duration then [(prev_end, total_duration)] else []
  | (sil_start, sil_end) :: rest =>
      (if sil_start > prev_end then [(prev_end, sil_start)] else []) ++
        nonSilentSweep (max prev_end sil_end) total_duration rest

/-- Embedding of `_compute_non_silent_segments` (`app/utils/silence.py`):
empty input yields the whole-file interval, otherwise the input is sorted
by start (as `sorted(..., key=lambda x: x[0])`) and swept. -/
def compute_non_silent_segments (silent_segments : List (ℚ × ℚ))
    (total_duration : ℚ) : List (ℚ × ℚ) :=
  if silent_segments = [] then [(0, total_duration)]
  else nonSilentSweep 0 total_duration
    (silent_segments.mergeSort (fun a b => decide (a.1 ≤ b.1)))

/-- The set of time points covered by a list of half-open intervals; used
to state what "the silent set" denotes. -/
def intervalSet : List (ℚ × ℚ) → Set ℚ
  | [] => ∅
  | p :: rest => Set.Ico p.1 p.2 ∪ intervalSet rest

/-- Embedding of the first while-loop of `_change_speed`
(`app/utils/ffmpeg_ops.py`): while `remaining > 2.0`, emit an `atempo=2.0`
stage and halve `remaining`.  `fuel` bounds the number of iterations. -/
def atempoHalve : ℕ → ℚ → Option (List ℚ × ℚ)
  | 0, r => if r > 2 then none else some ([], r)
  | n + 1, r =>
      if r > 2 then (atempoHalve n (r / 2)).map (fun p => (2 :: p.1, p.2))
      else some ([], r)

/-- Embedding of the second while-loop of `_change_speed`: while
`remaining < 0.5`, emit an `atempo=0.5` stage and divide `remaining` by
`0.5`.  `fuel` bounds the number of iterations. -/
def atempoDouble : ℕ → ℚ → Option (List ℚ × ℚ)
  | 0, r => if r < 1/2 then none else some ([], r)
  | n + 1, r =>
      if r < 1/2 then (atempoDouble n (r / (1/2))).map (fun p => (1/2 :: p.1, p.2))
      else some ([], r)

/-- The chain of `atempo` stage factors built by `_change_speed` for
`factor`: the two while-loops followed by the one residual stage.  `none`
means the given fuel does not cover the loops' iterations; a factor on
which the Python loops never terminate yields `none` for every fuel. -/
def audio_stages (fuel : ℕ) (factor : ℚ) : Option (List ℚ) :=
  match atempoHalve fuel factor with
  | none => none
  | some (l1, r1) =>
    match atempoDouble fuel r1 with
    | none => none
    | some (l2, r2) => some (l1 ++ l2 ++ [r2])

/-- Abstract file paths for one `apply_operations` run: the source file,
the declared output file, and the numbered `_nltemp_` intermediates. -/
inductive FPath
  | input
  | output
  | temp (i : ℕ)
deriving DecidableEq

/-- One edit-operation dict as produced by the NL collaborator: its `type`
tag and its numeric parameter (`seconds` or `factor`). -/
structure EditOp where
  type : String
  param : ℚ
deriving DecidableEq

/-- The operation kinds `apply_operations` dispatches on. -/
def knownOpType (t : String) : Bool :=
  t = "trim_start" || t = "trim_end" || t = "speed" || t = "fade_out"

/-- Observable events of an `apply_operations` run: `shutil.copy2` calls,
ffmpeg invocations writing a file, skip warnings, progress-callback
invocations, and temp-file removals. -/
inductive Ev
  | copy (src dst : FPath)
  | ffmpeg (src dst : FPath)
  | warn (msg : String)
  | progress (q : ℚ)
  | unlink (p : FPath)
deriving DecidableEq

/-- Embedding of the main loop of `apply_operations`
(`app/utils/ffmpeg_ops.py`), with ffmpeg invocations modelled as
succeeding.  Known operation kinds invoke ffmpeg into the step output;
an unknown kind logs a warning and, only when it is not the last
operation, copies the current input to the step output.  The final
`progress_callback(100)` is the `[]` case. -/
def applyLoop (total : ℕ) : ℕ → FPath → List EditOp → List Ev
  | _, _, [] => [Ev.progress 100]
  | i, cur, op :: rest =>
      let is_last := i = total - 1
      let cur_out := if is_last then FPath.output else FPath.temp i
      Ev.progress ((i : ℚ) / total * 100) ::
        ((if knownOpType op.type then [Ev.ffmpeg cur cur_out]
          else Ev.warn op.type ::
            (if is_last then [] else [Ev.copy cur cur_out])) ++
          applyLoop total (i + 1) cur_out rest)

/-- Embedding of `apply_operations` (`app/utils/ffmpeg_ops.py`) as an
event trace: the empty-list fast path copies input to output and reports
100; otherwise the loop runs and the `finally` block unlinks the
collected `_nltemp_` files. -/
def apply_operations (ops : List EditOp) : List Ev :=
  if ops = [] then [Ev.copy FPath.input FPath.output, Ev.progress 100]
  else
    applyLoop ops.length 0 FPath.input ops ++
      (List.range (ops.length - 1)).map (fun i => Ev.unlink (FPath.temp i))

/-- The path (if any) an event writes to. -/
def writeTarget : Ev → Option FPath
  | Ev.copy _ dst => some dst
  | Ev.ffmpeg _ dst => some dst
  | _ => none

/-- The progress percentages reported along a trace, in order. -/
def progressReports (evs : List Ev) : List ℚ :=
  evs.filterMap (fun e => match e with | Ev.progress q => some q | _ => none)

/-- One step of the file-existence semantics over a trace. -/
def existsStep (p : FPath) (acc : Bool) (e : Ev) : Bool :=
  match e with
  | Ev.copy _ dst => if dst = p then true else acc
  | Ev.ffmpeg _ dst => if dst = p then true else acc
  | Ev.unlink q => if q = p then false else acc
  | _ => acc

/-- Whether path `p` exists after the trace ran (given it did not exist
before the run). -/
def existsAfter (evs : List Ev) (p : FPath) : Bool :=
  evs.foldl (existsStep p) false

/-- The `processing_details` sub-record of the video metadata
(`app/utils/files.py`). -/
structure ProcessingDetails where
  current_step : String
  total_steps : ℕ
  current_step_progress : ℚ
deriving DecidableEq

/-- The fields of the metadata record that progress updates touch. -/
structure VideoMetadata where
  status : String
  processed : Bool
  progress : ℚ
  processing_details : ProcessingDetails
deriving DecidableEq

/-- Embedding of `update_processing_progress` (`app/utils/files.py`): the
read-modify-write of the metadata record, clamping both progress values
with `min(100, max(0, _))`. -/
def update_processing_progress (m : VideoMetadata) (progress : ℚ)
    (current_step : String) (total_steps : ℕ) (current_step_progress : ℚ) :
    VideoMetadata :=
  { m with
    progress := min 100 (max 0 progress)
    processing_details :=
      { current_step := current_step
        total_steps := total_steps
        current_step_progress := min 100 (max 0 current_step_progress) } }

/-- Embedding of the per-step progress callback built in `video_processor`
(`app/utils/processing.py`): the overall value passed to the progress
writer when step `i` of `total` reports step-local progress `sub`, namely
`base_progress + (sub / 100) * step_weight`. -/
def overall_progress (total i : ℕ) (sub : ℚ) : ℚ :=
  ((i : ℚ) / total) * 100 + (sub / 100) * (100 / total)

/-- The progress value actually stored for one write: the callback value
clamped by `update_processing_progress`. -/
def storedValue (total i : ℕ) (sub : ℚ) : ℚ :=
  min 100 (max 0 (overall_progress total i sub))

/-- The sequence of progress values stored in the metadata record over a
run of `total` steps starting at step `i`, where each step's list holds
the step-local values it reports, in order. -/
def storedProgressSeq (total : ℕ) : ℕ → List (List ℚ) → List ℚ
  | _, [] => []
  | i, subs :: rest =>
      subs.map (storedValue total i) ++ storedProgressSeq total (i + 1) rest

end ClipForge

namespace ClipForge

lemma intervalSet_append (l₁ l₂ : List (ℚ × ℚ)) :
    intervalSet (l₁ ++ l₂) = intervalSet l₁ ∪ intervalSet l₂ := by
  induction l₁ with
  | nil => simp [intervalSet]
  | cons p rest ih => simp [intervalSet, ih, Set.union_assoc]

lemma intervalSet_subset_Ico (l : List (ℚ × ℚ)) (a b : ℚ)
    (h : ∀ q ∈ l, a ≤ q.1 ∧ q.2 ≤ b) : intervalSet l ⊆ Set.Ico a b := by
  induction l with
  | nil => simp [intervalSet]
  | cons p rest ih =>
    intro x hx
    rcases hx with hx | hx
    · obtain ⟨h1, h2⟩ := h p (List.mem_cons_self _ _)
      exact ⟨le_trans h1 hx.1, lt_of_lt_of_le hx.2 h2⟩
    · exact ih (fun q hq => h q (List.mem_cons_of_mem _ hq)) hx

lemma nonSilentSweep_set (D : ℚ) : ∀ (l : List (ℚ × ℚ)) (p : ℚ),
    (∀ q ∈ l, p ≤ q.1 ∧ q.1 < q.2 ∧ q.2 ≤ D) →
    l.Pairwise (fun a b => a.2 ≤ b.1) →
    intervalSet (nonSilentSweep p D l) = Set.Ico p D \ intervalSet l := by
  intro l
  induction l with
  | nil =>
    intro p _ _
    by_cases hpD : p < D
    · simp [nonSilentSweep, if_pos hpD, intervalSet]
    · simp [nonSilentSweep, if_neg hpD, intervalSet, Set.Ico_eq_empty hpD]
  | cons q rest ih =>
    intro p hb hp
    obtain ⟨s, e⟩ := q
    obtain ⟨hps, hse, heD⟩ := hb (s, e) (List.mem_cons_self _ _)
    simp only at hps hse heD
    have hmax : max p e = e := max_eq_right (le_of_lt (lt_of_le_of_lt hps hse))
    have hbrest : ∀ q ∈ rest, e ≤ q.1 ∧ q.1 < q.2 ∧ q.2 ≤ D := by
      intro q hq
      obtain ⟨_, h2, h3⟩ := hb q (List.mem_cons_of_mem _ hq)
      exact ⟨(List.pairwise_cons.mp hp).1 q hq, h2, h3⟩
    have ihr := ih e (fun q hq => ⟨(hbrest q hq).1, (hbrest q hq).2⟩)
      (List.pairwise_cons.mp hp).2
    have hrest_sub : intervalSet rest ⊆ Set.Ico e D :=
      intervalSet_subset_Ico rest e D
        (fun q hq => ⟨(hbrest q hq).1, (hbrest q hq).2.2⟩)
    rw [nonSilentSweep, intervalSet_append, hmax, ihr]
    have hgap : intervalSet (if s > p then [(p, s)] else []) = Set.Ico p s := by
      by_cases hps2 : s > p
      · simp [if_pos hps2, intervalSet]
      · simp only [if_neg hps2, intervalSet]
        exact (Set.Ico_eq_empty hps2).symm
    rw [hgap]
    ext x
    simp only [Set.mem_union, Set.mem_diff, Set.mem_Ico, intervalSet, Set.mem_union]
    constructor
    · rintro (⟨h1, h2⟩ | ⟨⟨h1, h2⟩, h3⟩)
      · refine ⟨⟨h1, h2.trans (lt_of_lt_of_le hse heD)⟩, ?_⟩
        rintro (⟨h4, h5⟩ | h4)
        · exact absurd h4 (not_le.mpr h2)
        · exact absurd (hrest_sub h4).1 (not_le.mpr (h2.trans hse))
      · refine ⟨⟨le_trans (le_trans hps (le_of_lt hse)) h1, h2⟩, ?_⟩
        rintro (⟨_, h5⟩ | h4)
        · exact absurd h1 (not_le.mpr h5)
        · exact h3 h4
    · rintro ⟨⟨h1, h2⟩, h3⟩
      by_cases hxs : x < s
      · exact Or.inl ⟨h1, hxs⟩
      · right
        have hxe : e ≤ x := by
          by_contra hxe
          exact h3 (Or.inl ⟨not_lt.mp hxs, not_le.mp hxe⟩)
        exact ⟨⟨hxe, h2⟩, fun h4 => h3 (Or.inr h4)⟩

lemma nonSilentSweep_bounds (D : ℚ) : ∀ (l : List (ℚ × ℚ)) (p : ℚ),
    (∀ q ∈ l, p ≤ q.1 ∧ q.1 < q.2 ∧ q.2 ≤ D) →
    l.Pairwise (fun a b => a.2 ≤ b.1) →
    (∀ r ∈ nonSilentSweep p D l, p ≤ r.1 ∧ r.1 < r.2 ∧ r.2 ≤ D) ∧
      (nonSilentSweep p D l).Pairwise (fun a b => a.2 ≤ b.1) := by
  intro l
  induction l with
  | nil =>
    intro p _ _
    by_cases hpD : p < D
    · simp [nonSilentSweep, if_pos hpD, hpD]
    · simp [nonSilentSweep, if_neg hpD]
  | cons q rest ih =>
    intro p hb hp
    obtain ⟨s, e⟩ := q
    obtain ⟨hps, hse, heD⟩ := hb (s, e) (List.mem_cons_self _ _)
    simp only at hps hse heD
    have hmax : max p e = e := max_eq_right (le_of_lt (lt_of_le_of_lt hps hse))
    have hbrest : ∀ q ∈ rest, e ≤ q.1 ∧ q.1 < q.2 ∧ q.2 ≤ D := by
      intro q hq
      obtain ⟨_, h2, h3⟩ := hb q (List.mem_cons_of_mem _ hq)
      exact ⟨(List.pairwise_cons.mp hp).1 q hq, h2, h3⟩
    obtain ⟨ihb, ihp⟩ := ih e hbrest (List.pairwise_cons.mp hp).2
    rw [nonSilentSweep, hmax]
    constructor
    · intro r hr
      rcases List.mem_append.mp hr with hr | hr
      · by_cases hps2 : s > p
        · simp only [if_pos hps2, List.mem_singleton] at hr
          subst hr
          exact ⟨le_refl _, hps2, le_trans (le_of_lt hse) heD⟩
        · simp [if_neg hps2] at hr
      · obtain ⟨h1, h2, h3⟩ := ihb r hr
        exact ⟨le_trans (le_trans hps (le_of_lt hse)) h1, h2, h3⟩
    · rw [List.pairwise_append]
      refine ⟨?_, ihp, ?_⟩
      · by_cases hps2 : s > p
        · simp [if_pos hps2]
        · simp [if_neg hps2]
      · intro a ha b hb2
        by_cases hps2 : s > p
        · simp only [if_pos hps2, List.mem_singleton] at ha
          subst ha
          exact le_trans (le_of_lt hse) (ihb b hb2).1
        · simp [if_neg hps2] at ha

lemma pairwise_sorted_key (l : List (ℚ × ℚ))
    (hb : ∀ q ∈ l, q.1 < q.2)
    (hp : l.Pairwise (fun a b => a.2 ≤ b.1)) :
    l.Pairwise (fun a b : ℚ × ℚ => decide (a.1 ≤ b.1)) :=
  hp.imp_of_mem (fun ha _ hr =>
    decide_eq_true (le_of_lt (lt_of_lt_of_le (hb _ ha) hr)))

lemma compute_non_silent_set (l : List (ℚ × ℚ)) (D : ℚ)
    (hb : ∀ q ∈ l, 0 ≤ q.1 ∧ q.1 < q.2 ∧ q.2 ≤ D)
    (hp : l.Pairwise (fun a b => a.2 ≤ b.1)) :
    intervalSet (compute_non_silent_segments l D) = Set.Ico 0 D \ intervalSet l := by
  by_cases hl : l = []
  · subst hl
    simp [compute_non_silent_segments, intervalSet]
  · rw [compute_non_silent_segments, if_neg hl,
      List.mergeSort_of_sorted (pairwise_sorted_key l (fun q hq => (hb q hq).2.1) hp)]
    exact nonSilentSweep_set D l 0 hb hp

lemma compute_non_silent_bounds (l : List (ℚ × ℚ)) (D : ℚ)
    (hb : ∀ q ∈ l, 0 ≤ q.1 ∧ q.1 < q.2 ∧ q.2 ≤ D)
    (hp : l.Pairwise (fun a b => a.2 ≤ b.1)) (hl : l ≠ []) :
    (∀ r ∈ compute_non_silent_segments l D, 0 ≤ r.1 ∧ r.1 < r.2 ∧ r.2 ≤ D) ∧
      (compute_non_silent_segments l D).Pairwise (fun a b => a.2 ≤ b.1) := by
  rw [compute_non_silent_segments, if_neg hl,
    List.mergeSort_of_sorted (pairwise_sorted_key l (fun q hq => (hb q hq).2.1) hp)]
  exact nonSilentSweep_bounds D l 0 hb hp

lemma atempoHalve_spec : ∀ (n : ℕ) (r : ℚ), r ≤ 2 * 2 ^ n →
    ∃ l r', atempoHalve n r = some (l, r') ∧ (∀ s ∈ l, s = 2) ∧ r' ≤ 2 ∧
      2 ^ l.length * r' = r ∧ (2 < r → 1 < r') ∧ (r ≤ 2 → r' = r) := by
  intro n
  induction n with
  | zero =>
    intro r hr
    rw [pow_zero, mul_one] at hr
    refine ⟨[], r, ?_, by simp, hr, by simp, fun h => absurd hr (not_le.mpr h), fun _ => rfl⟩
    simp [atempoHalve, if_neg (not_lt.mpr hr)]
  | succ n ih =>
    intro r hr
    by_cases h2 : r > 2
    · have hr2 : r / 2 ≤ 2 * 2 ^ n := by
        rw [div_le_iff₀ (by norm_num : (0:ℚ) < 2)]
        calc r ≤ 2 * 2 ^ (n + 1) := hr
          _ = 2 * 2 ^ n * 2 := by ring
      obtain ⟨l, r', heq, hst, hle, hprod, hgt, hcase⟩ := ih (r / 2) hr2
      refine ⟨2 :: l, r', ?_, ?_, hle, ?_, ?_, fun h => absurd h (not_le.mpr h2)⟩
      · simp [atempoHalve, if_pos h2, heq]
      · intro s hs
        rcases List.mem_cons.mp hs with h | h
        · exact h
        · exact hst s h
      · have hpow : (2:ℚ) ^ (2 :: l).length = 2 * 2 ^ l.length := by
          simp [List.length_cons, pow_succ]
          ring
        rw [hpow, mul_assoc, hprod]
        field_simp
      · intro _
        by_cases h3 : 2 < r / 2
        · exact hgt h3
        · rw [hcase (not_lt.mp h3)]
          linarith [not_lt.mp h3]
    · refine ⟨[], r, ?_, by simp, not_lt.mp h2, by simp,
        fun h => absurd h h2, fun _ => rfl⟩
      simp [atempoHalve, if_neg h2]

lemma atempoDouble_spec : ∀ (n : ℕ) (r : ℚ), 1 / 2 ≤ r * 2 ^ n →
    ∃ l r', atempoDouble n r = some (l, r') ∧ (∀ s ∈ l, s = 1/2) ∧ 1/2 ≤ r' ∧
      (1/2 : ℚ) ^ l.length * r' = r ∧ (r < 1/2 → r' < 1) ∧ (1/2 ≤ r → r' = r) := by
  intro n
  induction n with
  | zero =>
    intro r hr
    rw [pow_zero, mul_one] at hr
    refine ⟨[], r, ?_, by simp, hr, by simp, fun h => absurd hr (not_le.mpr h), fun _ => rfl⟩
    rw [atempoDouble, if_neg (not_lt.mpr hr)]
  | succ n ih =>
    intro r hr
    by_cases h2 : r < 1/2
    · have hdiv : r / (1/2) = 2 * r := by
        norm_num
        ring
      have hr2 : 1/2 ≤ (r / (1/2)) * 2 ^ n := by
        rw [hdiv]
        calc (1:ℚ)/2 ≤ r * 2 ^ (n + 1) := hr
          _ = 2 * r * 2 ^ n := by ring
      obtain ⟨l, r', heq, hst, hle, hprod, hlt, hcase⟩ := ih (r / (1/2)) hr2
      refine ⟨1/2 :: l, r', ?_, ?_, hle, ?_, ?_, fun h => absurd h (not_le.mpr h2)⟩
      · rw [atempoDouble, if_pos h2, heq, Option.map_some']
      · intro s hs
        rcases List.mem_cons.mp hs with h | h
        · exact h
        · exact hst s h
      · have hpow : ((1:ℚ)/2) ^ (1/2 :: l).length = (1/2) * (1/2) ^ l.length := by
          simp [List.length_cons, pow_succ]
          ring
        rw [hpow, mul_assoc, hprod, hdiv]
        ring
      · intro _
        by_cases h3 : r / (1/2) < 1/2
        · exact hlt h3
        · rw [hcase (not_lt.mp h3), hdiv]
          linarith
    · refine ⟨[], r, ?_, by simp, not_lt.mp h2, by simp,
        fun h => absurd h h2, fun _ => rfl⟩
      rw [atempoDouble, if_neg h2]

lemma atempoHalve_mono : ∀ (n m : ℕ) (r : ℚ) (p : List ℚ × ℚ),
    atempoHalve n r = some p → n ≤ m → atempoHalve m r = some p := by
  intro n
  induction n with
  | zero =>
    intro m r p h _
    rw [atempoHalve] at h
    by_cases h2 : r > 2
    · rw [if_pos h2] at h
      exact Option.noConfusion h
    · rw [if_neg h2] at h
      cases m with
      | zero => rw [atempoHalve, if_neg h2]; exact h
      | succ m => rw [atempoHalve, if_neg h2]; exact h
  | succ n ih =>
    intro m r p h hnm
    rw [atempoHalve] at h
    by_cases h2 : r > 2
    · rw [if_pos h2] at h
      obtain ⟨q, hq, hqp⟩ := Option.map_eq_some'.mp h
      obtain ⟨m', rfl⟩ := Nat.exists_eq_add_of_le (le_trans (Nat.succ_le_succ (Nat.le_refl n)) hnm)
      rw [show n + 1 + m' = (n + m') + 1 by omega, atempoHalve, if_pos h2,
        ih (n + m') (r / 2) q hq (Nat.le_add_right _ _), Option.map_some']
      rw [hqp]
    · rw [if_neg h2] at h
      cases m with
      | zero => rw [atempoHalve, if_neg h2]; exact h
      | succ m => rw [atempoHalve, if_neg h2]; exact h

lemma atempoDouble_mono : ∀ (n m : ℕ) (r : ℚ) (p : List ℚ × ℚ),
    atempoDouble n r = some p → n ≤ m → atempoDouble m r = some p := by
  intro n
  induction n with
  | zero =>
    intro m r p h _
    rw [atempoDouble] at h
    by_cases h2 : r < 1/2
    · rw [if_pos h2] at h
      exact Option.noConfusion h
    · rw [if_neg h2] at h
      cases m with
      | zero => rw [atempoDouble, if_neg h2]; exact h
      | succ m => rw [atempoDouble, if_neg h2]; exact h
  | succ n ih =>
    intro m r p h hnm
    rw [atempoDouble] at h
    by_cases h2 : r < 1/2
    · rw [if_pos h2] at h
      obtain ⟨q, hq, hqp⟩ := Option.map_eq_some'.mp h
      obtain ⟨m', rfl⟩ := Nat.exists_eq_add_of_le (le_trans (Nat.succ_le_succ (Nat.le_refl n)) hnm)
      rw [show n + 1 + m' = (n + m') + 1 by omega, atempoDouble, if_pos h2,
        ih (n + m') (r / (1/2)) q hq (Nat.le_add_right _ _), Option.map_some']
      rw [hqp]
    · rw [if_neg h2] at h
      cases m with
      | zero => rw [atempoDouble, if_neg h2]; exact h
      | succ m => rw [atempoDouble, if_neg h2]; exact h

lemma atempoDouble_zero : ∀ n : ℕ, atempoDouble n 0 = none := by
  intro n
  induction n with
  | zero => simp [atempoDouble]
  | succ n ih =>
    rw [atempoDouble, if_pos (by norm_num : (0:ℚ) < 1/2)]
    rw [zero_div, ih, Option.map_none']

lemma progressReports_append (l₁ l₂ : List Ev) :
    progressReports (l₁ ++ l₂) = progressReports l₁ ++ progressReports l₂ :=
  List.filterMap_append _ _ _

lemma applyLoop_reports_concat : ∀ (ops : List EditOp) (i total : ℕ) (cur : FPath),
    ∃ l, progressReports (applyLoop total i cur ops) = l ++ [100] := by
  intro ops
  induction ops with
  | nil =>
    intro i total cur
    exact ⟨[], rfl⟩
  | cons op rest ih =>
    intro i total cur
    obtain ⟨l, hl⟩ := ih (i + 1)
      total (if i = total - 1 then FPath.output else FPath.temp i)
    rw [applyLoop]
    simp only [progressReports, List.filterMap_cons, List.filterMap_append]
    by_cases hk : knownOpType op.type
    · rw [if_pos hk]
      refine ⟨(i : ℚ) / total * 100 :: l, ?_⟩
      simp only [List.filterMap_cons, List.filterMap_nil]
      rw [show List.filterMap _ (applyLoop total (i+1) _ rest) =
        progressReports (applyLoop total (i+1)
          (if i = total - 1 then FPath.output else FPath.temp i) rest) from rfl, hl]
      simp
    · rw [if_neg hk]
      refine ⟨(i : ℚ) / total * 100 :: l, ?_⟩
      by_cases hlast : i = total - 1
      · rw [if_pos hlast]
        simp only [List.filterMap_cons, List.filterMap_nil]
        rw [show List.filterMap _ (applyLoop total (i+1) _ rest) =
          progressReports (applyLoop total (i+1)
            (if i = total - 1 then FPath.output else FPath.temp i) rest) from rfl, hl]
        simp
      · rw [if_neg hlast]
        simp only [List.filterMap_cons, List.filterMap_nil]
        rw [show List.filterMap _ (applyLoop total (i+1) _ rest) =
          progressReports (applyLoop total (i+1)
            (if i = total - 1 then FPath.output else FPath.temp i) rest) from rfl, hl]
        simp

lemma applyLoop_warn_mem : ∀ (ops : List EditOp) (i total : ℕ) (cur : FPath)
    (op : EditOp), op ∈ ops → knownOpType op.type = false →
    Ev.warn op.type ∈ applyLoop total i cur ops := by
  intro ops
  induction ops with
  | nil =>
    intro i total cur op h
    exact absurd h (List.not_mem_nil _)
  | cons op' rest ih =>
    intro i total cur op hmem hunk
    rw [applyLoop]
    rcases List.mem_cons.mp hmem with rfl | hmem
    · rw [if_neg (by rw [hunk]; exact Bool.false_ne_true)]
      exact List.mem_cons_of_mem _ (List.mem_append_left _ (List.mem_cons_self _ _))
    · refine List.mem_cons_of_mem _ (List.mem_append_right _ ?_)
      exact ih (i + 1) total _ op hmem hunk

lemma applyLoop_no_output_write : ∀ (ops : List EditOp) (i total : ℕ) (cur : FPath),
    i + ops.length = total →
    (∀ op, ops.getLast? = some op → knownOpType op.type = false) →
    ∀ e ∈ applyLoop total i cur ops, writeTarget e ≠ some FPath.output := by
  intro ops
  induction ops with
  | nil =>
    intro i total cur _ _ e he
    rw [applyLoop] at he
    rw [List.mem_singleton.mp he]
    simp [writeTarget]
  | cons op rest ih =>
    intro i total cur htot hlast e he
    rw [applyLoop] at he
    simp only [List.mem_cons, List.mem_append] at he
    rcases he with rfl | he | he
    · simp [writeTarget]
    · cases rest with
      | nil =>
        have hl : i = total - 1 := by
          simp at htot
          omega
        have hunk : knownOpType op.type = false := hlast op rfl
        rw [if_neg (by rw [hunk]; exact Bool.false_ne_true), if_pos hl] at he
        simp only [List.mem_cons, List.not_mem_nil, or_false] at he
        rw [he]
        simp [writeTarget]
      | cons r rs =>
        have hl : ¬ (i = total - 1) := by
          simp at htot
          omega
        simp only [if_neg hl] at he
        by_cases hk : knownOpType op.type
        · rw [if_pos hk] at he
          rw [List.mem_singleton.mp he]
          simp [writeTarget]
        · rw [if_neg hk] at he
          simp only [List.mem_cons, List.not_mem_nil, or_false,
            List.mem_singleton] at he
          rcases he with rfl | he
          · simp [writeTarget]
          · rw [he]
            simp [writeTarget]
    · cases rest with
      | nil =>
        rw [applyLoop] at he
        rw [List.mem_singleton.mp he]
        simp [writeTarget]
      | cons r rs =>
        refine ih (i + 1) total _ (by simp at htot ⊢; omega) ?_ e he
        intro op2 hop2
        exact hlast op2 (by rw [List.getLast?_cons_cons]; exact hop2)

lemma existsAfter_eq_false : ∀ (evs : List Ev) (p : FPath),
    (∀ e ∈ evs, writeTarget e ≠ some p) → existsAfter evs p = false := by
  intro evs
  induction evs with
  | nil => intro p _; rfl
  | cons e rest ih =>
    intro p h
    have he := h e (List.mem_cons_self _ _)
    have hacc : existsStep p false e = false := by
      cases e with
      | copy s d =>
        have hne : d ≠ p := fun hdp => he (by rw [writeTarget, hdp])
        simp [existsStep, hne]
      | ffmpeg s d =>
        have hne : d ≠ p := fun hdp => he (by rw [writeTarget, hdp])
        simp [existsStep, hne]
      | warn m => rfl
      | progress q => rfl
      | unlink q => simp [existsStep, ite_self]
    rw [existsAfter, List.foldl_cons, hacc]
    exact ih p (fun e2 he2 => h e2 (List.mem_cons_of_mem _ he2))

lemma unlink_no_write (n : ℕ) :
    ∀ e ∈ (List.range n).map (fun i => Ev.unlink (FPath.temp i)),
      writeTarget e ≠ some FPath.output := by
  intro e he
  obtain ⟨i, _, rfl⟩ := List.mem_map.mp he
  simp [writeTarget]

lemma storedValue_mono (total i : ℕ) {a b : ℚ} (hab : a ≤ b) :
    storedValue total i a ≤ storedValue total i b := by
  have h1 : (0:ℚ) ≤ 100 / total := by positivity
  have h2 : overall_progress total i a ≤ overall_progress total i b := by
    unfold overall_progress
    have h3 : a / 100 ≤ b / 100 := by linarith
    exact add_le_add_left (mul_le_mul_of_nonneg_right h3 h1) _
  exact min_le_min le_rfl (max_le_max le_rfl h2)

lemma overall_progress_boundary (total i : ℕ) :
    overall_progress total i 100 = overall_progress total (i + 1) 0 := by
  unfold overall_progress
  push_cast
  by_cases h : (total : ℚ) = 0
  · rw [h]
    norm_num
  · field_simp
    ring

lemma storedValue_last (total : ℕ) (h : 0 < total) :
    storedValue total (total - 1) 100 = 100 := by
  unfold storedValue overall_progress
  have hc : ((total - 1 : ℕ) : ℚ) = (total : ℚ) - 1 := by
    rw [Nat.cast_sub (Nat.one_le_iff_ne_zero.mpr h.ne'), Nat.cast_one]
  have hne : (total : ℚ) ≠ 0 := Nat.cast_ne_zero.mpr h.ne'
  rw [hc]
  have hval : ((total : ℚ) - 1) / total * 100 + 100 / 100 * (100 / total) = 100 := by
    field_simp
    ring
  rw [hval]
  norm_num

lemma storedProgressSeq_spec (n : ℕ) (hn : 0 < n) :
    ∀ (subs : List (List ℚ)) (i : ℕ), subs ≠ [] → i + subs.length = n →
    (∀ l ∈ subs, l.Chain' (· ≤ ·) ∧ (∀ x ∈ l, 0 ≤ x ∧ x ≤ 100) ∧
      l.getLast? = some 100) →
    (storedProgressSeq n i subs).Chain' (· ≤ ·) ∧
      (storedProgressSeq n i subs).getLast? = some 100 ∧
      ∀ x ∈ (storedProgressSeq n i subs).head?, storedValue n i 0 ≤ x := by
  intro subs
  induction subs with
  | nil => intro i h; exact absurd rfl h
  | cons l rest ih =>
    intro i _ hlen hall
    obtain ⟨hchain, hbnd, hlast⟩ := hall l (List.mem_cons_self _ _)
    have hlne : l ≠ [] := by
      intro h
      rw [h] at hlast
      exact Option.noConfusion hlast
    have hblock : (l.map (storedValue n i)).Chain' (· ≤ ·) :=
      (List.chain'_map _).mpr (hchain.imp (fun a b hab => storedValue_mono n i hab))
    have hblock_last : (l.map (storedValue n i)).getLast? =
        some (storedValue n i 100) := by
      rw [List.getLast?_map, hlast, Option.map_some']
    have hblock_head : ∀ x ∈ (l.map (storedValue n i)).head?,
        storedValue n i 0 ≤ x := by
      intro x hx
      rw [List.head?_map] at hx
      obtain ⟨a, ha, rfl⟩ := Option.map_eq_some'.mp hx
      exact storedValue_mono n i (hbnd a (List.mem_of_mem_head? ha)).1
    cases rest with
    | nil =>
      rw [storedProgressSeq, storedProgressSeq, List.append_nil]
      have hi : i = n - 1 := by
        simp at hlen
        omega
      refine ⟨hblock, ?_, hblock_head⟩
      rw [hblock_last, hi, storedValue_last n hn]
    | cons r rs =>
      have hrest := ih (i + 1) (by simp) (by simp at hlen ⊢; omega)
        (fun l2 hl2 => hall l2 (List.mem_cons_of_mem _ hl2))
      obtain ⟨hrc, hrl, hrh⟩ := hrest
      rw [storedProgressSeq]
      refine ⟨?_, ?_, ?_⟩
      · rw [List.chain'_append]
        refine ⟨hblock, hrc, ?_⟩
        intro x hx y hy
        rw [hblock_last, Option.mem_def, Option.some.injEq] at hx
        subst hx
        have hb : storedValue n i 100 = storedValue n (i + 1) 0 := by
          unfold storedValue
          rw [overall_progress_boundary]
        rw [hb]
        exact hrh y hy
      · rw [List.getLast?_append, hrl]
        rfl
      · intro x hx
        rw [List.head?_append] at hx
        have hmne : l.map (storedValue n i) ≠ [] := by
          intro h
          exact hlne (List.map_eq_nil_iff.mp h)
        rw [Option.or_of_isSome (by
          rw [List.head?_isSome]
          exact hmne)] at hx
        exact hblock_head x hx

/-- C1 counterexample: `apply_operations` on a single operation of unknown
kind `"zoom"` does not fail; it reports 0%, logs a skip warning, and
completes with a 100% report.  No `UnsupportedOperationError` (or any
other error) is raised: the embedded run is a plain trace ending
normally, refuting the claim that an unknown kind fails the run. -/
theorem apply_operations_unknown_completes :
    apply_operations [⟨"zoom", 1⟩] =
      [Ev.progress 0, Ev.warn "zoom", Ev.progress 100] := by
  rw [apply_operations, if_neg (by simp)]
  simp [applyLoop, knownOpType]

/-- C1 (amended): when `apply_operations` encounters an operation whose
kind is not one of trim_start, trim_end, speed, fade_out, it logs a
warning and skips the operation; the run continues and completes,
reporting 100% progress. -/
theorem apply_operations_unknown_warns (ops : List EditOp) (op : EditOp)
    (hmem : op ∈ ops) (hunk : knownOpType op.type = false) :
    Ev.warn op.type ∈ apply_operations ops ∧
      (progressReports (apply_operations ops)).getLast? = some 100 := by
  have hne : ops ≠ [] := fun h => by
    subst h
    exact absurd hmem (List.not_mem_nil _)
  constructor
  · rw [apply_operations, if_neg hne]
    exact List.mem_append_left _
      (applyLoop_warn_mem ops 0 ops.length FPath.input op hmem hunk)
  · rw [apply_operations, if_neg hne, progressReports_append]
    obtain ⟨l, hl⟩ := applyLoop_reports_concat ops 0 ops.length FPath.input
    have h2 : progressReports ((List.range (ops.length - 1)).map
        (fun i => Ev.unlink (FPath.temp i))) = [] := by
      rw [progressReports, List.filterMap_eq_nil_iff]
      intro e he
      obtain ⟨i, _, rfl⟩ := List.mem_map.mp he
      rfl
    rw [hl, h2, List.append_nil, List.getLast?_concat]

/-- C1 witness: the amended statement at the concrete list
`[zoom2, speed]`. -/
theorem apply_operations_unknown_warns_witness :
    Ev.warn "zoom2" ∈ apply_operations [⟨"zoom2", 1⟩, ⟨"speed", 2⟩] ∧
      (progressReports
        (apply_operations [⟨"zoom2", 1⟩, ⟨"speed", 2⟩])).getLast? = some 100 :=
  apply_operations_unknown_warns [⟨"zoom2", 1⟩, ⟨"speed", 2⟩] ⟨"zoom2", 1⟩
    (List.mem_cons_self _ _) (by simp [knownOpType])

/-- C2 counterexample: for the non-negative factor 0 the decomposition
loop of `_change_speed` never terminates (dividing 0 by 0.5 leaves 0
below 0.5 forever), so no finite stage chain exists: the embedding
returns `none` for every fuel bound.  This refutes the claim for all
non-negative factors. -/
theorem change_speed_zero_diverges : ¬ ∃ n l, audio_stages n (0:ℚ) = some l := by
  rintro ⟨n, l, h⟩
  have hh : atempoHalve n 0 = some ([], 0) := by
    cases n with
    | zero => rw [atempoHalve, if_neg (by norm_num)]
    | succ n => rw [atempoHalve, if_neg (by norm_num)]
  simp only [audio_stages, hh, atempoDouble_zero n] at h
  exact Option.noConfusion h

/-- C2 (amended): for every positive speed factor `f` the audio-tempo
decomposition of `_change_speed` terminates (some fuel suffices) and
produces a finite non-empty chain of stages, each lying in `[1/2, 2]`,
whose product is exactly `f` (exact in rational arithmetic, which is
stronger than the floating tolerance the claim allows). -/
theorem change_speed_stages_sound (f : ℚ) (hf : 0 < f) :
    ∃ n l, audio_stages n f = some l ∧ l ≠ [] ∧
      (∀ s ∈ l, 1/2 ≤ s ∧ s ≤ 2) ∧ l.prod = f := by
  obtain ⟨n1, hn1⟩ := pow_unbounded_of_one_lt (f / 2 : ℚ) (by norm_num : (1:ℚ) < 2)
  have hf2 : f ≤ 2 * 2 ^ n1 := by
    rw [div_lt_iff₀ (by norm_num : (0:ℚ) < 2)] at hn1
    linarith
  obtain ⟨l1, r1, heq1, hst1, hle1, hprod1, _, _⟩ := atempoHalve_spec n1 f hf2
  have hr1pos : 0 < r1 := by
    by_contra h
    push_neg at h
    have h0 : 2 ^ l1.length * r1 ≤ 0 :=
      mul_nonpos_of_nonneg_of_nonpos (by positivity) h
    rw [hprod1] at h0
    linarith
  obtain ⟨n2, hn2⟩ := pow_unbounded_of_one_lt (1 / (2 * r1) : ℚ) (by norm_num : (1:ℚ) < 2)
  have hr1fuel : 1 / 2 ≤ r1 * 2 ^ n2 := by
    rw [div_lt_iff₀ (by positivity)] at hn2
    rw [div_le_iff₀ (by norm_num : (0:ℚ) < 2)]
    nlinarith
  obtain ⟨l2, r2, heq2, hst2, hge2, hprod2, hlt2, hcase2⟩ := atempoDouble_spec n2 r1 hr1fuel
  have hr2le : r2 ≤ 2 := by
    by_cases h : r1 < 1/2
    · linarith [hlt2 h]
    · rw [hcase2 (not_lt.mp h)]
      exact hle1
  refine ⟨max n1 n2, l1 ++ l2 ++ [r2], ?_, by simp, ?_, ?_⟩
  · simp only [audio_stages,
      atempoHalve_mono n1 (max n1 n2) f (l1, r1) heq1 (le_max_left _ _),
      atempoDouble_mono n2 (max n1 n2) r1 (l2, r2) heq2 (le_max_right _ _)]
  · intro s hs
    rcases List.mem_append.mp hs with hs | hs
    · rcases List.mem_append.mp hs with hs | hs
      · rw [hst1 s hs]
        norm_num
      · rw [hst2 s hs]
        norm_num
    · rw [List.mem_singleton.mp hs]
      exact ⟨hge2, hr2le⟩
  · rw [List.prod_append, List.prod_append, List.prod_singleton,
      List.prod_eq_pow_card l1 2 hst1, List.prod_eq_pow_card l2 (1/2) hst2,
      mul_assoc, hprod2, hprod1]

/-- C2 witness: the amended statement at the concrete factor 5. -/
theorem change_speed_stages_sound_witness :
    (0 : ℚ) < 5 ∧ ∃ n l, audio_stages n (5:ℚ) = some l ∧ l ≠ [] ∧
      (∀ s ∈ l, 1/2 ≤ s ∧ s ≤ 2) ∧ l.prod = 5 :=
  ⟨by norm_num, change_speed_stages_sound 5 (by norm_num)⟩

/-- C3: for every sorted, non-overlapping list of silent intervals
contained in `[0, total_duration]` (each interval non-degenerate, each
interval ending no later than the next one starts), applying the
complement function to the audible list it returns reconstructs the
original silent set — the covered time points coincide — and the
complement of the empty silent list is `[(0, D)]` for every duration. -/
theorem silence_complement_round_trip (l : List (ℚ × ℚ)) (D : ℚ)
    (hb : ∀ q ∈ l, 0 ≤ q.1 ∧ q.1 < q.2 ∧ q.2 ≤ D)
    (hp : l.Pairwise (fun a b => a.2 ≤ b.1)) :
    intervalSet (compute_non_silent_segments (compute_non_silent_segments l D) D) =
        intervalSet l ∧
      ∀ D2 : ℚ, compute_non_silent_segments [] D2 = [(0, D2)] := by
  refine ⟨?_, fun D2 => by simp [compute_non_silent_segments]⟩
  by_cases hl : l = []
  · subst hl
    have hmax : ¬ (max 0 D < D) := by
      rcases le_total 0 D with h | h
      · rw [max_eq_right h]
        exact lt_irrefl D
      · rw [max_eq_left h]
        exact not_lt.mpr h
    simp [compute_non_silent_segments, nonSilentSweep, intervalSet, hmax]
  · have haud := compute_non_silent_bounds l D hb hp hl
    rw [compute_non_silent_set (compute_non_silent_segments l D) D haud.1 haud.2,
      compute_non_silent_set l D hb hp, Set.diff_diff_right_self]
    exact Set.inter_eq_right.mpr
      (intervalSet_subset_Ico l 0 D (fun q hq => ⟨(hb q hq).1, (hb q hq).2.2⟩))

/-- C3 witness: the round trip at the concrete silent list
`[(0,1), (2,3)]` with total duration 3. -/
theorem silence_complement_round_trip_witness :
    intervalSet (compute_non_silent_segments
        (compute_non_silent_segments [((0:ℚ), (1:ℚ)), (2, 3)] 3) 3) =
      intervalSet [((0:ℚ), (1:ℚ)), (2, 3)] :=
  (silence_complement_round_trip [((0:ℚ), (1:ℚ)), (2, 3)] 3
    (by
      intro q hq
      simp only [List.mem_cons, List.not_mem_nil, or_false] at hq
      rcases hq with rfl | rfl <;> norm_num)
    (by
      rw [List.pairwise_cons]
      refine ⟨?_, List.pairwise_singleton _ _⟩
      intro b hb
      rw [List.mem_singleton.mp hb]
      norm_num)).1

/-- C4: for every list of face samples (including the empty list) and all
positive video dimensions, the rectangle `_compute_crop_region` returns
has even width and height, width at most the video width and height at
most the video height, and lies fully inside
`[0, video_width] × [0, video_height]`. -/
theorem compute_crop_region_bounds (fp : List (ℚ × ℚ × ℚ × ℚ)) (W H x y w h : ℤ)
    (hW : 0 < W) (hH : 0 < H)
    (heq : compute_crop_region fp W H = (x, y, w, h)) :
    2 ∣ w ∧ 2 ∣ h ∧ 0 ≤ w ∧ w ≤ W ∧ 0 ≤ h ∧ h ≤ H ∧
      0 ≤ x ∧ 0 ≤ y ∧ x + w ≤ W ∧ y + h ≤ H := by
  have hfl : pyInt ((H : ℚ) * 9 / 16) = ⌊(H : ℚ) * 9 / 16⌋ := by
    rw [pyInt, if_pos]
    positivity
  have hw0nn : 0 ≤ pyInt ((H : ℚ) * 9 / 16) := by
    rw [hfl]
    apply Int.floor_nonneg.mpr
    positivity
  by_cases hbr : pyInt ((H : ℚ) * 9 / 16) > W
  · have hWq : (W : ℚ) < (H : ℚ) * 9 / 16 := by
      rw [hfl] at hbr
      calc (W : ℚ) < (⌊(H : ℚ) * 9 / 16⌋ : ℚ) := by exact_mod_cast hbr
        _ ≤ (H : ℚ) * 9 / 16 := Int.floor_le _
    have hfl2 : pyInt ((W : ℚ) * 16 / 9) = ⌊(W : ℚ) * 16 / 9⌋ := by
      rw [pyInt, if_pos]
      positivity
    have hhlt : ⌊(W : ℚ) * 16 / 9⌋ < H := by
      rw [Int.floor_lt]
      linarith
    have hhnn : 0 ≤ ⌊(W : ℚ) * 16 / 9⌋ := by
      apply Int.floor_nonneg.mpr
      positivity
    simp only [compute_crop_region, if_pos hbr, Prod.mk.injEq, hfl2] at heq
    obtain ⟨hx, hy, hw, hh⟩ := heq
    have hx1 : 0 ≤ x := by
      rw [← hx]
      exact le_max_left _ _
    have hy1 : 0 ≤ y := by
      rw [← hy]
      exact le_max_left _ _
    have hx2 : x ≤ W - (W - W % 2) := by
      rw [← hx]
      exact max_le (by omega) (min_le_right _ _)
    have hy2 : y ≤ H - (⌊(W : ℚ) * 16 / 9⌋ - ⌊(W : ℚ) * 16 / 9⌋ % 2) := by
      rw [← hy]
      exact max_le (by omega) (min_le_right _ _)
    exact ⟨by omega, by omega, by omega, by omega, by omega, by omega,
      hx1, hy1, by omega, by omega⟩
  · push_neg at hbr
    simp only [compute_crop_region, if_neg (not_lt.mpr hbr), Prod.mk.injEq] at heq
    obtain ⟨hx, hy, hw, hh⟩ := heq
    have hx1 : 0 ≤ x := by
      rw [← hx]
      exact le_max_left _ _
    have hy1 : 0 ≤ y := by
      rw [← hy]
      exact le_max_left _ _
    have hx2 : x ≤ W - (pyInt ((H : ℚ) * 9 / 16) - pyInt ((H : ℚ) * 9 / 16) % 2) := by
      rw [← hx]
      exact max_le (by omega) (min_le_right _ _)
    have hy2 : y ≤ H - (H - H % 2) := by
      rw [← hy]
      exact max_le (by omega) (min_le_right _ _)
    exact ⟨by omega, by omega, by omega, by omega, by omega, by omega,
      hx1, hy1, by omega, by omega⟩

/-- C4 witness: the bounds at the concrete 1920×1080 no-samples call. -/
theorem compute_crop_region_bounds_witness :
    (0:ℤ) < 1920 ∧ (0:ℤ) < 1080 ∧
      (2 ∣ (606:ℤ) ∧ 2 ∣ (1080:ℤ) ∧ (0:ℤ) ≤ 606 ∧ (606:ℤ) ≤ 1920 ∧
        (0:ℤ) ≤ 1080 ∧ (1080:ℤ) ≤ 1080 ∧ (0:ℤ) ≤ 657 ∧ (0:ℤ) ≤ 0 ∧
        (657:ℤ) + 606 ≤ 1920 ∧ (0:ℤ) + 1080 ≤ 1080) :=
  ⟨by norm_num, by norm_num,
    compute_crop_region_bounds [] 1920 1080 657 0 606 1080 (by norm_num)
      (by norm_num) (by norm_num [compute_crop_region, pyInt])⟩

/-- C5 counterexample: with the capture opened and a reported frame count
of 0, `_sample_face_positions` raises `RuntimeError` ("Cannot determine
frame count") — it does not return the empty sample list, refuting the
claim that it never raises in this case. -/
theorem sample_face_positions_raises :
    sample_face_positions true 0 (fun _ => none) =
      Except.error "Cannot determine frame count" := rfl

/-- C5 (amended): whenever the source's total frame count is zero or
negative, `_sample_face_positions` raises `RuntimeError` with the message
"Cannot determine frame count", failing the pipeline run instead of
falling back to a center crop. -/
theorem sample_face_positions_nonpos (tf : ℤ) (htf : tf ≤ 0)
    (detect : ℤ → Option (ℚ × ℚ × ℚ × ℚ)) :
    sample_face_positions true tf detect =
      Except.error "Cannot determine frame count" := by
  rw [sample_face_positions, if_neg (by simp), if_pos htf]

/-- C5 witness: the amended statement at the concrete frame count -7. -/
theorem sample_face_positions_nonpos_witness :
    sample_face_positions true (-7) (fun _ => none) =
      Except.error "Cannot determine frame count" :=
  sample_face_positions_nonpos (-7) (by norm_num) (fun _ => none)

/-- C6 counterexample: at `video_width = video_height = 0` (non-positive
dimensions) `_compute_crop_region` returns the degenerate rectangle
`(0, 0, 0, 0)` instead of failing; the source contains no dimension
check and no `InvalidDimensionsError` at all, refuting the claim. -/
theorem compute_crop_region_zero_dims :
    compute_crop_region [] 0 0 = (0, 0, 0, 0) := by
  norm_num [compute_crop_region, pyInt]

/-- C6 (amended): `_compute_crop_region` performs no dimension validation
and never fails; with zero dimensions it returns the degenerate rectangle
`(0, 0, 0, 0)` for every sample list. -/
theorem compute_crop_region_no_validation (fp : List (ℚ × ℚ × ℚ × ℚ)) :
    compute_crop_region fp 0 0 = (0, 0, 0, 0) := by
  norm_num [compute_crop_region, pyInt]

/-- C7: with a 1920×1080 source and no face samples, the crop rectangle is
width 606 (1080·9/16 = 607.5, truncated to 607, then rounded down to the
even 606), height 1080, x = (1920 − 606)/2 = 657, y = 0. -/
theorem compute_crop_region_default_1080p :
    compute_crop_region [] 1920 1080 = (657, 0, 606, 1080) := by
  norm_num [compute_crop_region, pyInt]

/-- C8: in a pipeline run of `n` steps (1 ≤ n ≤ 3), if each step reports a
non-decreasing sequence of step-local progress values in `[0, 100]` ending
at 100, the sequence of overall progress values stored in the metadata
record (the per-step callback values of `video_processor`, clamped by
`update_processing_progress`) is monotonically non-decreasing and its
final value is exactly 100. -/
theorem pipeline_progress_monotone (n : ℕ) (subs : List (List ℚ))
    (hn1 : 1 ≤ n) (hn3 : n ≤ 3) (hlen : subs.length = n)
    (hsub : ∀ l ∈ subs, l.Chain' (· ≤ ·) ∧ (∀ x ∈ l, 0 ≤ x ∧ x ≤ 100) ∧
      l.getLast? = some 100) :
    (storedProgressSeq n 0 subs).Chain' (· ≤ ·) ∧
      (storedProgressSeq n 0 subs).getLast? = some 100 := by
  have hne : subs ≠ [] := by
    intro h
    rw [h] at hlen
    simp at hlen
    omega
  obtain ⟨h1, h2, _⟩ := storedProgressSeq_spec n (by omega) subs 0 hne
    (by omega) hsub
  exact ⟨h1, h2⟩

/-- C8 witness: the statement for a concrete two-step run. -/
theorem pipeline_progress_monotone_witness :
    (1 ≤ 2 ∧ 2 ≤ 3) ∧
      ((storedProgressSeq 2 0 [[0, 50, 100], [0, 100]]).Chain' (· ≤ ·) ∧
        (storedProgressSeq 2 0 [[0, 50, 100], [0, 100]]).getLast? = some 100) :=
  ⟨⟨by norm_num, by norm_num⟩,
    pipeline_progress_monotone 2 [[0, 50, 100], [0, 100]] (by norm_num)
      (by norm_num) (by norm_num)
      (by
        intro l hl
        simp only [List.mem_cons, List.not_mem_nil, or_false] at hl
        rcases hl with rfl | rfl
        · exact ⟨by norm_num [List.chain'_cons], by norm_num, rfl⟩
        · exact ⟨by norm_num [List.chain'_cons], by norm_num, rfl⟩)⟩

/-- C9: for every non-empty operation list whose last element has an
unknown operation kind, `apply_operations` completes (its progress
reports end with 100) while no event of the run ever writes the declared
output path, so the output file does not exist afterward. -/
theorem apply_operations_unknown_last (ops : List EditOp) (op : EditOp)
    (hlast : ops.getLast? = some op) (hunk : knownOpType op.type = false) :
    (progressReports (apply_operations ops)).getLast? = some 100 ∧
      (∀ e ∈ apply_operations ops, writeTarget e ≠ some FPath.output) ∧
      existsAfter (apply_operations ops) FPath.output = false := by
  have hne : ops ≠ [] := by
    intro h
    rw [h] at hlast
    exact Option.noConfusion hlast
  have hnowrite : ∀ e ∈ apply_operations ops, writeTarget e ≠ some FPath.output := by
    intro e he
    rw [apply_operations, if_neg hne] at he
    rcases List.mem_append.mp he with he | he
    · exact applyLoop_no_output_write ops 0 ops.length FPath.input (by simp)
        (fun op2 hop2 => by
          rw [hlast] at hop2
          rcases Option.some.injEq _ _ ▸ hop2 with rfl
          · exact hunk) e he
    · exact unlink_no_write _ e he
  refine ⟨?_, hnowrite, existsAfter_eq_false _ _ hnowrite⟩
  rw [apply_operations, if_neg hne, progressReports_append]
  obtain ⟨l, hl⟩ := applyLoop_reports_concat ops 0 ops.length FPath.input
  have h2 : progressReports ((List.range (ops.length - 1)).map
      (fun i => Ev.unlink (FPath.temp i))) = [] := by
    rw [progressReports, List.filterMap_eq_nil_iff]
    intro e he
    obtain ⟨i, _, rfl⟩ := List.mem_map.mp he
    rfl
  rw [hl, h2, List.append_nil, List.getLast?_concat]

/-- C9 witness: the statement at the concrete list
`[trim_start, zoom]`. -/
theorem apply_operations_unknown_last_witness :
    (progressReports
        (apply_operations [⟨"trim_start", 2⟩, ⟨"zoom", 1⟩])).getLast? = some 100 ∧
      (∀ e ∈ apply_operations [⟨"trim_start", 2⟩, ⟨"zoom", 1⟩],
        writeTarget e ≠ some FPath.output) ∧
      existsAfter (apply_operations [⟨"trim_start", 2⟩, ⟨"zoom", 1⟩])
        FPath.output = false :=
  apply_operations_unknown_last [⟨"trim_start", 2⟩, ⟨"zoom", 1⟩] ⟨"zoom", 1⟩
    rfl (by simp [knownOpType])

/-- C10: every progress write clamps its inputs: for all caller-supplied
values (including values outside `[0, 100]`), `update_processing_progress`
stores `progress = min(100, max(0, progress))` and
`current_step_progress = min(100, max(0, current_step_progress))`, so the
stored record's progress fields always lie in `[0, 100]`. -/
theorem update_processing_progress_clamps (m : VideoMetadata) (p : ℚ)
    (cs : String) (ts : ℕ) (csp : ℚ) :
    (update_processing_progress m p cs ts csp).progress = min 100 (max 0 p) ∧
      (update_processing_progress m p cs ts
          csp).processing_details.current_step_progress = min 100 (max 0 csp) ∧
      0 ≤ (update_processing_progress m p cs ts csp).progress ∧
      (update_processing_progress m p cs ts csp).progress ≤ 100 ∧
      0 ≤ (update_processing_progress m p cs ts
          csp).processing_details.current_step_progress ∧
      (update_processing_progress m p cs ts
          csp).processing_details.current_step_progress ≤ 100 :=
  ⟨rfl, rfl, le_min (by norm_num) (le_max_left 0 p), min_le_left _ _,
    le_min (by norm_num) (le_max_left 0 csp), min_le_left _ _⟩

end ClipForge
